import Mathlib

/-!
Verification of the Resume Optimizer matching engine and its frontend glue.

The repository ships a Next.js frontend (`frontend/app/page.tsx`,
`frontend/app/saveSession.ts`, a small `AnalyzeResult` type module) while the
FastAPI backend that implements the matching engine (Text Normalizer, Keyword
Matcher, Semantic Similarity Ranker, Analysis Orchestrator) is not part of the
checked-in sources.  The engine components are therefore modelled from the
specification; the frontend functions are embedded directly from
`frontend/app/page.tsx`.

JavaScript / Python strings are modelled as `List Char`; scores and
similarities (floats in the source) are modelled as rationals `ℚ`.
-/

namespace ResumeOptimizer

/-- A piece of text: a JS/Python string modelled as a list of characters. -/
abbrev Text := List Char

/-! ## Text Normalizer (modelled from the spec, §4.1) -/

/-- Modelled from the spec: the backend tokenizer is not in `src/`; per §4.1
tokens are maximal alphanumeric runs ("splits on whitespace/word boundaries",
"tokens are lowercase, alphanumeric"). A word character is a letter or digit. -/
def isWordChar (c : Char) : Bool := c.isAlpha || c.isDigit

/-- Emit the current (reversed) run as a token, dropping empty runs. -/
def flushRun (cur : Text) : List Text :=
  if cur = [] then [] else [cur.reverse]

/-- Modelled from the spec: accumulator-based scan splitting text into maximal
runs of characters satisfying `p`; `cur` holds the current run reversed. -/
def runsAux (p : Char → Bool) : Text → Text → List Text
  | cur, [] => flushRun cur
  | cur, c :: cs =>
    if p c then runsAux p (c :: cur) cs
    else flushRun cur ++ runsAux p [] cs

/-- Modelled from the spec: split text into maximal runs of word characters,
dropping the separators ("strips punctuation", "splits on whitespace/word
boundaries"; empty segments are dropped). -/
def splitRuns (text : Text) : List Text := runsAux isWordChar [] text

/-- Modelled from the spec: read-only normalizer configuration (§9: stop-word
list and minimum keyword length passed in as configuration, not global state). -/
structure NormalizerConfig where
  stopWords : List Text
  minKeywordLength : Nat

/-- Modelled from the spec: a token survives filtering when it is at least the
minimum length, is not a stop word, and is not digits-only noise (§4.1). -/
def keepToken (cfg : NormalizerConfig) (t : Text) : Bool :=
  decide (cfg.minKeywordLength ≤ t.length) &&
    !(decide (t ∈ cfg.stopWords)) &&
    t.any (fun c => c.isAlpha)

/-- Modelled from the spec: deduplicate preserving first-seen order (§4.1),
carrying the set of already-seen tokens. -/
def dedupFirstSeen (seen : List Text) : List Text → List Text
  | [] => []
  | t :: ts =>
    if t ∈ seen then dedupFirstSeen seen ts
    else t :: dedupFirstSeen (t :: seen) ts

/-- Modelled from the spec: `normalize(text) -> TokenSet` (§4.1) — lowercase,
split into alphanumeric runs, filter stop words / short / digits-only tokens,
deduplicate preserving first-seen order. -/
def normalize (cfg : NormalizerConfig) (text : Text) : List Text :=
  dedupFirstSeen [] ((splitRuns (text.map Char.toLower)).filter (keepToken cfg))

/-! ## Keyword Matcher (modelled from the spec, §4.2) -/

/-- Result of the Keyword Matcher. -/
structure MatchResult where
  matched : List Text
  missing : List Text
  score : ℚ

/-- Modelled from the spec: `match(job_tokens, resume_tokens)` (§4.2) —
`matched = job_tokens ∩ resume_tokens`, `missing = job_tokens − matched`,
`score = 100 * |matched| / |job_tokens|`, with score `0` for empty job tokens. -/
def matchKeywords (jobTokens resumeTokens : List Text) : MatchResult :=
  let matched := jobTokens.filter (fun t => decide (t ∈ resumeTokens))
  let missing := jobTokens.filter (fun t => !(decide (t ∈ resumeTokens)))
  { matched := matched
    missing := missing
    score :=
      if jobTokens.length = 0 then 0
      else 100 * (matched.length : ℚ) / (jobTokens.length : ℚ) }

/-! ## Basic lemmas about the matcher -/

theorem matchKeywords_matched (jt rt : List Text) :
    (matchKeywords jt rt).matched = jt.filter (fun t => decide (t ∈ rt)) := rfl

theorem matchKeywords_missing (jt rt : List Text) :
    (matchKeywords jt rt).missing = jt.filter (fun t => !(decide (t ∈ rt))) := rfl

theorem matchKeywords_score (jt rt : List Text) :
    (matchKeywords jt rt).score =
      if jt.length = 0 then 0
      else 100 * ((matchKeywords jt rt).matched.length : ℚ) / (jt.length : ℚ) := rfl

theorem mem_matched_iff (jt rt : List Text) (t : Text) :
    t ∈ (matchKeywords jt rt).matched ↔ t ∈ jt ∧ t ∈ rt := by
  simp [matchKeywords_matched, List.mem_filter]

theorem mem_missing_iff (jt rt : List Text) (t : Text) :
    t ∈ (matchKeywords jt rt).missing ↔ t ∈ jt ∧ t ∉ rt := by
  simp [matchKeywords_missing, List.mem_filter]

theorem matched_length_add_missing_length (jt rt : List Text) :
    (matchKeywords jt rt).matched.length + (matchKeywords jt rt).missing.length
      = jt.length := by
  simp only [matchKeywords_matched, matchKeywords_missing]
  induction jt with
  | nil => simp
  | cons x xs ih =>
    by_cases hx : x ∈ rt <;> simp [List.filter_cons, hx] <;> omega

/-- C1. For every analysis, matched and missing partition the normalized
job-description token set: they are disjoint and their union is exactly
`normalize cfg jd`. -/
theorem matched_missing_partition (cfg : NormalizerConfig) (jd resume : Text)
    (t : Text) :
    ¬(t ∈ (matchKeywords (normalize cfg jd) (normalize cfg resume)).matched ∧
       t ∈ (matchKeywords (normalize cfg jd) (normalize cfg resume)).missing) ∧
    ((t ∈ (matchKeywords (normalize cfg jd) (normalize cfg resume)).matched ∨
      t ∈ (matchKeywords (normalize cfg jd) (normalize cfg resume)).missing) ↔
      t ∈ normalize cfg jd) := by
  constructor
  · rintro ⟨hm, hs⟩
    rw [mem_matched_iff] at hm
    rw [mem_missing_iff] at hs
    exact hs.2 hm.2
  · constructor
    · rintro (hm | hs)
      · exact (mem_matched_iff _ _ _).mp hm |>.1
      · exact (mem_missing_iff _ _ _).mp hs |>.1
    · intro hj
      by_cases hr : t ∈ normalize cfg resume
      · exact Or.inl ((mem_matched_iff _ _ _).mpr ⟨hj, hr⟩)
      · exact Or.inr ((mem_missing_iff _ _ _).mpr ⟨hj, hr⟩)

/-- C2. The matcher's score is `100 * |matched| / |job_tokens|` for non-empty
job tokens and `0` (with both keyword lists empty) for empty job tokens; the
score is total — the empty case is a defined value, not a division error. -/
theorem score_formula (jt rt : List Text) :
    ((matchKeywords jt rt).score =
      if jt.length = 0 then 0
      else 100 * ((matchKeywords jt rt).matched.length : ℚ) / (jt.length : ℚ)) ∧
    matchKeywords [] rt = ⟨[], [], 0⟩ := by
  refine ⟨matchKeywords_score jt rt, ?_⟩
  rfl

/-- Witness for C1 at a concrete input. -/
theorem matched_missing_partition_witness :
    ¬(['a', 'b'] ∈ (matchKeywords (normalize ⟨[], 2⟩ ['a', 'b'])
          (normalize ⟨[], 2⟩ ['a', 'b'])).matched ∧
      ['a', 'b'] ∈ (matchKeywords (normalize ⟨[], 2⟩ ['a', 'b'])
          (normalize ⟨[], 2⟩ ['a', 'b'])).missing) ∧
    ((['a', 'b'] ∈ (matchKeywords (normalize ⟨[], 2⟩ ['a', 'b'])
          (normalize ⟨[], 2⟩ ['a', 'b'])).matched ∨
      ['a', 'b'] ∈ (matchKeywords (normalize ⟨[], 2⟩ ['a', 'b'])
          (normalize ⟨[], 2⟩ ['a', 'b'])).missing) ↔
      ['a', 'b'] ∈ normalize ⟨[], 2⟩ ['a', 'b']) :=
  matched_missing_partition ⟨[], 2⟩ ['a', 'b'] ['a', 'b'] ['a', 'b']

/-- Witness for C2 at a concrete input. -/
theorem score_formula_witness :
    ((matchKeywords [['a', 'b']] []).score =
      if ([['a', 'b']] : List Text).length = 0 then 0
      else 100 * ((matchKeywords [['a', 'b']] []).matched.length : ℚ) /
        (([['a', 'b']] : List Text).length : ℚ)) ∧
    matchKeywords [] [] = ⟨[], [], 0⟩ :=
  score_formula [['a', 'b']] []

/-- C5. For non-empty job tokens the score is 0 exactly when no keyword
matched, and 100 exactly when no keyword is missing. -/
theorem score_iff_empty (jt rt : List Text) (h : jt ≠ []) :
    ((matchKeywords jt rt).score = 0 ↔ (matchKeywords jt rt).matched = []) ∧
    ((matchKeywords jt rt).score = 100 ↔ (matchKeywords jt rt).missing = []) := by
  have hn0 : jt.length ≠ 0 := fun hh => h (List.length_eq_zero.mp hh)
  have hn : (jt.length : ℚ) ≠ 0 := Nat.cast_ne_zero.mpr hn0
  have hsum := matched_length_add_missing_length jt rt
  rw [matchKeywords_score, if_neg hn0]
  constructor
  · rw [div_eq_zero_iff]
    constructor
    · rintro (h1 | h2)
      · rcases mul_eq_zero.mp h1 with h3 | h3
        · norm_num at h3
        · have h4 : (matchKeywords jt rt).matched.length = 0 := by exact_mod_cast h3
          exact List.length_eq_zero.mp h4
      · exact absurd h2 hn
    · intro hm
      left
      rw [hm]
      simp
  · rw [div_eq_iff hn]
    constructor
    · intro h1
      have h2 : ((matchKeywords jt rt).matched.length : ℚ) = (jt.length : ℚ) :=
        mul_left_cancel₀ (by norm_num : (100 : ℚ) ≠ 0) h1
      have h3 : (matchKeywords jt rt).matched.length = jt.length := by exact_mod_cast h2
      have h4 : (matchKeywords jt rt).missing.length = 0 := by omega
      exact List.length_eq_zero.mp h4
    · intro hm
      have h4 : (matchKeywords jt rt).missing.length = 0 := by rw [hm]; rfl
      have h3 : (matchKeywords jt rt).matched.length = jt.length := by omega
      rw [h3]

/-- Witness for C5 at a concrete input. -/
theorem score_iff_empty_witness :
    ([['p', 'y']] : List Text) ≠ [] ∧
    (((matchKeywords [['p', 'y']] []).score = 0 ↔
        (matchKeywords [['p', 'y']] []).matched = []) ∧
     ((matchKeywords [['p', 'y']] []).score = 100 ↔
        (matchKeywords [['p', 'y']] []).missing = [])) :=
  ⟨by decide, score_iff_empty [['p', 'y']] [] (by decide)⟩

/-! ## Tokenization lemmas used for score monotonicity (C6) -/

theorem runsAux_append_sep (p : Char → Bool) (x : Char) (hx : p x = false)
    (a : Text) :
    ∀ (cur b : Text),
      runsAux p cur (a ++ x :: b) = runsAux p cur a ++ runsAux p [] b := by
  induction a with
  | nil =>
    intro cur b
    simp [runsAux, hx]
  | cons c a ih =>
    intro cur b
    by_cases hc : p c
    · simp only [List.cons_append, runsAux, if_pos hc]
      exact ih (c :: cur) b
    · simp only [List.cons_append, runsAux, if_neg hc, List.append_eq]
      rw [ih [] b, List.append_assoc]

/-- Splitting into runs distributes over concatenation at a non-word
separator. -/
theorem splitRuns_append (x : Char) (hx : isWordChar x = false) (a b : Text) :
    splitRuns (a ++ x :: b) = splitRuns a ++ splitRuns b :=
  runsAux_append_sep isWordChar x hx a [] b

theorem mem_dedupFirstSeen (l : List Text) (t : Text) :
    ∀ seen, t ∈ dedupFirstSeen seen l ↔ t ∈ l ∧ t ∉ seen := by
  induction l with
  | nil => intro seen; simp [dedupFirstSeen]
  | cons x xs ih =>
    intro seen
    by_cases hx : x ∈ seen
    · simp only [dedupFirstSeen, if_pos hx, ih, List.mem_cons]
      by_cases htx : t = x
      · subst htx; simp [hx]
      · simp [htx]
    · simp only [dedupFirstSeen, if_neg hx, List.mem_cons, ih, List.mem_cons]
      by_cases htx : t = x
      · subst htx; simp [hx]
      · simp [htx]

theorem mem_normalize_iff (cfg : NormalizerConfig) (text : Text) (t : Text) :
    t ∈ normalize cfg text ↔
      t ∈ (splitRuns (text.map Char.toLower)).filter (keepToken cfg) := by
  simp [normalize, mem_dedupFirstSeen]

theorem toLower_space : Char.toLower ' ' = ' ' := by decide

theorem mem_normalize_append (cfg : NormalizerConfig) (resume t : Text) (x : Text)
    (hx : x ∈ normalize cfg resume) :
    x ∈ normalize cfg (resume ++ ' ' :: t) := by
  rw [mem_normalize_iff] at hx ⊢
  rw [List.map_append, List.map_cons, toLower_space,
    splitRuns_append ' ' (by decide), List.filter_append]
  exact List.mem_append_left _ hx

theorem score_mono_of_subset (jt rtA rtB : List Text)
    (hsub : ∀ x, x ∈ rtA → x ∈ rtB) :
    (matchKeywords jt rtA).score ≤ (matchKeywords jt rtB).score := by
  rw [matchKeywords_score, matchKeywords_score]
  by_cases h0 : jt.length = 0
  · simp [h0]
  · rw [if_neg h0, if_neg h0]
    have hlen : (matchKeywords jt rtA).matched.length ≤
        (matchKeywords jt rtB).matched.length := by
      rw [matchKeywords_matched, matchKeywords_matched]
      refine List.Sublist.length_le (List.monotone_filter_right jt ?_)
      intro a ha
      simp only [decide_eq_true_eq] at ha ⊢
      exact hsub a ha
    have hpos : (0 : ℚ) < (jt.length : ℚ) := by
      exact_mod_cast Nat.pos_of_ne_zero h0
    have hcast : ((matchKeywords jt rtA).matched.length : ℚ) ≤
        ((matchKeywords jt rtB).matched.length : ℚ) := by exact_mod_cast hlen
    rw [div_le_div_iff₀ hpos hpos]
    nlinarith

/-- C6. For a fixed job description, appending to the résumé a token that
matches a job keyword never decreases the match score. -/
theorem match_score_monotone (cfg : NormalizerConfig) (jd resume t : Text)
    (_ht : t ∈ normalize cfg jd) :
    (matchKeywords (normalize cfg jd) (normalize cfg resume)).score ≤
      (matchKeywords (normalize cfg jd) (normalize cfg (resume ++ ' ' :: t))).score :=
  score_mono_of_subset _ _ _ (fun x hx => mem_normalize_append cfg resume t x hx)

/-- Witness for C6 at a concrete input. -/
theorem match_score_monotone_witness :
    (['a', 'b'] : Text) ∈ normalize ⟨[], 2⟩ ['a', 'b'] ∧
    (matchKeywords (normalize ⟨[], 2⟩ ['a', 'b'])
        (normalize ⟨[], 2⟩ [])).score ≤
      (matchKeywords (normalize ⟨[], 2⟩ ['a', 'b'])
        (normalize ⟨[], 2⟩ ([] ++ ' ' :: ['a', 'b']))).score :=
  ⟨by decide, match_score_monotone ⟨[], 2⟩ ['a', 'b'] [] ['a', 'b'] (by decide)⟩

/-! ## Semantic Similarity Ranker (modelled from the spec, §4.3) -/

/-- Modelled from the spec: whitespace characters, for trimming and for the
"empty/whitespace-only" input check. -/
def isSpaceChar (c : Char) : Bool :=
  c = ' ' || c = '\t' || c = '\n' || c = '\r'

/-- Modelled from the spec: terminal punctuation ending a sentence (§4.3). -/
def isTerminal (c : Char) : Bool := c = '.' || c = '!' || c = '?'

/-- Modelled from the spec: collapse runs of whitespace to single spaces and
trim the ends (§4.3 "collapsing whitespace"). -/
def collapseWs (t : Text) : Text :=
  List.intercalate [' '] (runsAux (fun c => !(isSpaceChar c)) [] t)

/-- Modelled from the spec: deterministic sentence segmentation — split on
terminal punctuation, collapse whitespace, drop empty segments (§4.3). -/
def splitSentences (text : Text) : List Text :=
  ((runsAux (fun c => !(isTerminal c)) [] text).map collapseWs).filter
    (fun s => !(s.isEmpty))

/-- A best-matching sentence pair produced by the Ranker (§3 SimilarityPair,
extended with the original job-sentence index used for the stable tie-break). -/
structure SimilarityPair where
  jobIndex : Nat
  jobSentence : Text
  resumeSentence : Text
  similarity : ℚ
  deriving DecidableEq

/-- Modelled from the spec: scan for the résumé sentence with maximum
similarity to `j`, keeping the earliest on ties. -/
def bestAux (sim : Text → Text → ℚ) (j : Text) : List Text → (Text × ℚ) → Text × ℚ
  | [], acc => acc
  | r :: rs, acc =>
    bestAux sim j rs (if acc.2 < sim j r then (r, sim j r) else acc)

/-- Modelled from the spec: the single best-matching résumé sentence for a job
sentence, or `none` when the résumé has no sentences (§4.3). -/
def bestFor (sim : Text → Text → ℚ) (j : Text) : List Text → Option (Text × ℚ)
  | [] => none
  | r :: rs => some (bestAux sim j rs (r, sim j r))

/-- Modelled from the spec: one best pair per job sentence, tagged with the
job-sentence index (§4.3). -/
def bestPairsAux (sim : Text → Text → ℚ) (resumeS : List Text) :
    Nat → List Text → List SimilarityPair
  | _, [] => []
  | i, j :: js =>
    match bestFor sim j resumeS with
    | none => bestPairsAux sim resumeS (i + 1) js
    | some (r, v) => ⟨i, j, r, v⟩ :: bestPairsAux sim resumeS (i + 1) js

/-- Modelled from the spec: all best pairs, indexed from 0. -/
def bestPairs (sim : Text → Text → ℚ) (jobS resumeS : List Text) :
    List SimilarityPair :=
  bestPairsAux sim resumeS 0 jobS

/-- Ranking order: descending similarity, ties broken by ascending original
job-sentence index (§4.3). -/
def pairLE (a b : SimilarityPair) : Prop :=
  b.similarity < a.similarity ∨
    (a.similarity = b.similarity ∧ a.jobIndex ≤ b.jobIndex)

instance : DecidableRel pairLE := fun a b => by
  unfold pairLE
  infer_instance

instance : IsTotal SimilarityPair pairLE where
  total a b := by
    rcases lt_trichotomy a.similarity b.similarity with h | h | h
    · exact Or.inr (Or.inl h)
    · rcases Nat.le_total a.jobIndex b.jobIndex with hi | hi
      · exact Or.inl (Or.inr ⟨h, hi⟩)
      · exact Or.inr (Or.inr ⟨h.symm, hi⟩)
    · exact Or.inl (Or.inl h)

instance : IsTrans SimilarityPair pairLE where
  trans a b c hab hbc := by
    rcases hab with h1 | ⟨h1, h1i⟩ <;> rcases hbc with h2 | ⟨h2, h2i⟩
    · exact Or.inl (h2.trans h1)
    · exact Or.inl (h2 ▸ h1)
    · exact Or.inl (h1 ▸ h2)
    · exact Or.inr ⟨h1.trans h2, h1i.trans h2i⟩

/-- Result of the Ranker (§4.3). -/
structure RankResult where
  pairs : List SimilarityPair
  semanticScore : ℚ

/-- Modelled from the spec: `rank(job_text, resume_text, top_n)` (§4.3) —
best pair per job sentence, sorted descending by similarity with the stable
index tie-break, truncated to `top_n`; the semantic score is 100 times the
mean similarity over the selected pairs, or 0 when there are none. -/
def rank (sim : Text → Text → ℚ) (topN : Nat) (jobText resumeText : Text) :
    RankResult :=
  let jobS := splitSentences jobText
  let resumeS := splitSentences resumeText
  let sorted := List.insertionSort pairLE (bestPairs sim jobS resumeS)
  let pairs := sorted.take topN
  { pairs := pairs
    semanticScore :=
      if pairs.length = 0 then 0
      else 100 * (pairs.map (fun p => p.similarity)).sum / (pairs.length : ℚ) }

/-! ## Ranker lemmas -/

theorem bestAux_acc_le (sim : Text → Text → ℚ) (j : Text) :
    ∀ (rs : List Text) (acc : Text × ℚ), acc.2 ≤ (bestAux sim j rs acc).2 := by
  intro rs
  induction rs with
  | nil => intro acc; exact le_refl _
  | cons r rs ih =>
    intro acc
    by_cases h : acc.2 < sim j r
    · simp only [bestAux, if_pos h]
      exact le_of_lt (lt_of_lt_of_le h (ih (r, sim j r)))
    · simp only [bestAux, if_neg h]
      exact ih acc

theorem bestAux_spec (sim : Text → Text → ℚ) (j : Text) :
    ∀ (rs : List Text) (acc : Text × ℚ),
      acc.2 = sim j acc.1 →
      ((bestAux sim j rs acc).2 = sim j (bestAux sim j rs acc).1 ∧
       (bestAux sim j rs acc = acc ∨ (bestAux sim j rs acc).1 ∈ rs) ∧
       ∀ s ∈ rs, sim j s ≤ (bestAux sim j rs acc).2) := by
  intro rs
  induction rs with
  | nil =>
    intro acc hacc
    exact ⟨hacc, Or.inl rfl, by simp⟩
  | cons r rs ih =>
    intro acc hacc
    by_cases h : acc.2 < sim j r
    · simp only [bestAux, if_pos h]
      obtain ⟨h1, h2, h3⟩ := ih (r, sim j r) rfl
      refine ⟨h1, ?_, ?_⟩
      · rcases h2 with h2 | h2
        · exact Or.inr (by rw [h2]; exact List.mem_cons_self r rs)
        · exact Or.inr (List.mem_cons_of_mem r h2)
      · intro s hs
        rcases List.mem_cons.mp hs with hs | hs
        · subst hs
          exact le_trans (le_refl _) (bestAux_acc_le sim j rs (s, sim j s))
        · exact h3 s hs
    · simp only [bestAux, if_neg h]
      obtain ⟨h1, h2, h3⟩ := ih acc hacc
      refine ⟨h1, ?_, ?_⟩
      · rcases h2 with h2 | h2
        · exact Or.inl h2
        · exact Or.inr (List.mem_cons_of_mem r h2)
      · intro s hs
        rcases List.mem_cons.mp hs with hs | hs
        · subst hs
          exact le_trans (le_of_not_lt h) (bestAux_acc_le sim j rs acc)
        · exact h3 s hs

theorem bestFor_spec (sim : Text → Text → ℚ) (j : Text) (rs : List Text)
    (r : Text) (v : ℚ) (h : bestFor sim j rs = some (r, v)) :
    r ∈ rs ∧ v = sim j r ∧ ∀ s ∈ rs, sim j s ≤ v := by
  cases rs with
  | nil => simp [bestFor] at h
  | cons r0 rs0 =>
    simp only [bestFor, Option.some.injEq] at h
    obtain ⟨h1, h2, h3⟩ := bestAux_spec sim j rs0 (r0, sim j r0) rfl
    have hr : (bestAux sim j rs0 (r0, sim j r0)).1 = r := by rw [h]
    have hv : (bestAux sim j rs0 (r0, sim j r0)).2 = v := by rw [h]
    refine ⟨?_, ?_, ?_⟩
    · rcases h2 with h2 | h2
      · rw [← hr, h2]
        exact List.mem_cons_self r0 rs0
      · rw [← hr]
        exact List.mem_cons_of_mem r0 h2
    · rw [← hr, ← hv]
      exact h1
    · intro s hs
      rcases List.mem_cons.mp hs with hs | hs
      · subst hs
        rw [← hv]
        exact bestAux_acc_le sim j rs0 (s, sim j s)
      · rw [← hv]
        exact h3 s hs

theorem mem_bestPairsAux (sim : Text → Text → ℚ) (resumeS : List Text) :
    ∀ (js : List Text) (i : Nat) (p : SimilarityPair),
      p ∈ bestPairsAux sim resumeS i js →
      ∃ k, k < js.length ∧ p.jobIndex = i + k ∧ js[k]? = some p.jobSentence ∧
        bestFor sim p.jobSentence resumeS = some (p.resumeSentence, p.similarity) := by
  intro js
  induction js with
  | nil => intro i p hp; simp [bestPairsAux] at hp
  | cons j js ih =>
    intro i p hp
    cases hb : bestFor sim j resumeS with
    | none =>
      rw [bestPairsAux, hb] at hp
      obtain ⟨k, hk, hki, hkg, hkb⟩ := ih (i + 1) p hp
      exact ⟨k + 1, by simp; omega, by omega, by simpa using hkg, hkb⟩
    | some rv =>
      obtain ⟨r, v⟩ := rv
      rw [bestPairsAux, hb] at hp
      rcases List.mem_cons.mp hp with hp | hp
      · subst hp
        exact ⟨0, by simp, by simp, by simp, by simpa using hb⟩
      · obtain ⟨k, hk, hki, hkg, hkb⟩ := ih (i + 1) p hp
        exact ⟨k + 1, by simp; omega, by omega, by simpa using hkg, hkb⟩

/-- C3. `rank` returns at most `top_n` pairs, sorted descending by similarity
with ties broken by ascending job-sentence index; every returned pair is the
best-matching résumé sentence of its job sentence, with similarity within the
bounds of the similarity measure. -/
theorem rank_spec (sim : Text → Text → ℚ) (topN : Nat) (jobText resumeText : Text)
    (hsim : ∀ a b, 0 ≤ sim a b ∧ sim a b ≤ 1) :
    (rank sim topN jobText resumeText).pairs.length ≤ topN ∧
    List.Pairwise pairLE (rank sim topN jobText resumeText).pairs ∧
    ∀ p ∈ (rank sim topN jobText resumeText).pairs,
      (0 ≤ p.similarity ∧ p.similarity ≤ 1) ∧
      (splitSentences jobText)[p.jobIndex]? = some p.jobSentence ∧
      p.resumeSentence ∈ splitSentences resumeText ∧
      p.similarity = sim p.jobSentence p.resumeSentence ∧
      ∀ s ∈ splitSentences resumeText, sim p.jobSentence s ≤ p.similarity := by
  refine ⟨List.length_take_le _ _, ?_, ?_⟩
  · exact (List.sorted_insertionSort pairLE _).sublist (List.take_sublist _ _)
  · intro p hp
    have hp1 : p ∈ List.insertionSort pairLE
        (bestPairs sim (splitSentences jobText) (splitSentences resumeText)) :=
      List.mem_of_mem_take hp
    have hp2 : p ∈ bestPairs sim (splitSentences jobText) (splitSentences resumeText) :=
      (List.mem_insertionSort pairLE).mp hp1
    obtain ⟨k, hk, hki, hkg, hkb⟩ :=
      mem_bestPairsAux sim (splitSentences resumeText) (splitSentences jobText) 0 p hp2
    obtain ⟨hmem, hval, hmax⟩ := bestFor_spec sim p.jobSentence _ _ _ hkb
    have hidx : p.jobIndex = k := by omega
    refine ⟨?_, ?_, hmem, hval, hmax⟩
    · constructor
      · rw [hval]; exact (hsim _ _).1
      · rw [hval]; exact (hsim _ _).2
    · rw [hidx]; exact hkg

/-- A concrete similarity measure with values in `[0, 1]`, used as witness. -/
def simHalf : Text → Text → ℚ := fun _ _ => 1 / 2

/-- Witness for C3 at a concrete input. -/
theorem rank_spec_witness :
    (∀ a b, 0 ≤ simHalf a b ∧ simHalf a b ≤ 1) ∧
    ((rank simHalf 2 ['H', 'i', '.'] ['Y', 'o']).pairs.length ≤ 2 ∧
    List.Pairwise pairLE (rank simHalf 2 ['H', 'i', '.'] ['Y', 'o']).pairs ∧
    ∀ p ∈ (rank simHalf 2 ['H', 'i', '.'] ['Y', 'o']).pairs,
      (0 ≤ p.similarity ∧ p.similarity ≤ 1) ∧
      (splitSentences ['H', 'i', '.'])[p.jobIndex]? = some p.jobSentence ∧
      p.resumeSentence ∈ splitSentences ['Y', 'o'] ∧
      p.similarity = simHalf p.jobSentence p.resumeSentence ∧
      ∀ s ∈ splitSentences ['Y', 'o'], simHalf p.jobSentence s ≤ p.similarity) :=
  ⟨fun a b => by norm_num [simHalf],
   rank_spec simHalf 2 ['H', 'i', '.'] ['Y', 'o']
     (fun a b => by norm_num [simHalf])⟩

/-! ## Analysis Orchestrator (modelled from the spec, §4.4 and §7) -/

/-- Modelled from the spec: the error taxonomy of §7. -/
inductive AnalysisError where
  | invalidInput
  | emptyInput
  | degradedAnalysis
  | enrichmentUnavailable
  deriving DecidableEq

/-- Modelled from the spec: recognized analysis options (§4.4). -/
structure AnalysisOptions where
  topNMatches : Nat
  enableAiEnrichment : Bool
  minKeywordLength : Nat

/-- Modelled from the spec: output of the external text-generation provider
(§6), stored verbatim. -/
structure Enrichment where
  summary : Text
  missingSkills : List Text
  bulletImprovements : List Text

/-- Modelled from the spec: the `AnalysisResult` output contract (§3). -/
structure AnalysisResult where
  matchScore : ℚ
  semanticScore : Option ℚ
  matchedKeywords : List Text
  missingKeywords : List Text
  topMatches : List SimilarityPair
  aiSummary : Option Text
  aiMissingSkills : Option (List Text)
  aiBulletImprovements : Option (List Text)

/-- Modelled from the spec: a string is blank when it is empty or
whitespace-only (§4.4). -/
def isBlank (text : Text) : Bool := text.all isSpaceChar

/-- Modelled from the spec: `analyze(raw, options)` (§4.4). The external
collaborators are passed in explicitly (§9 dependency injection): `sim` is
the similarity provider and `enrichOutcome` the best-effort outcome of the
text-generation call (`none` models its timeout or failure). -/
def analyze (sim : Text → Text → ℚ) (enrichOutcome : Option Enrichment)
    (stopWords : List Text) (opts : AnalysisOptions)
    (resumeText jobDescription : Text) : Except AnalysisError AnalysisResult :=
  if isBlank resumeText || isBlank jobDescription then
    .error .invalidInput
  else
    let cfg : NormalizerConfig := ⟨stopWords, opts.minKeywordLength⟩
    let m := matchKeywords (normalize cfg jobDescription) (normalize cfg resumeText)
    let r := rank sim opts.topNMatches jobDescription resumeText
    let enrich := if opts.enableAiEnrichment then enrichOutcome else none
    .ok
      { matchScore := m.score
        semanticScore := some r.semanticScore
        matchedKeywords := m.matched
        missingKeywords := m.missing
        topMatches := r.pairs
        aiSummary := enrich.map (fun e => e.summary)
        aiMissingSkills := enrich.map (fun e => e.missingSkills)
        aiBulletImprovements := enrich.map (fun e => e.bulletImprovements) }

/-- C4. `analyze` fails, and fails with `InvalidInputError`, exactly when the
résumé text or the job description is empty or whitespace-only; no other
condition (similarity provider, enrichment outcome, options) ever aborts the
analysis, and the failure carries no partial result. -/
theorem analyze_error_iff (sim : Text → Text → ℚ)
    (enrichOutcome : Option Enrichment) (stopWords : List Text)
    (opts : AnalysisOptions) (resumeText jobDescription : Text)
    (e : AnalysisError) :
    analyze sim enrichOutcome stopWords opts resumeText jobDescription =
        Except.error e ↔
      (e = AnalysisError.invalidInput ∧
        (isBlank resumeText || isBlank jobDescription) = true) := by
  unfold analyze
  by_cases h : (isBlank resumeText || isBlank jobDescription) = true
  · rw [if_pos h]
    constructor
    · intro he
      cases he
      exact ⟨rfl, h⟩
    · rintro ⟨he, -⟩
      rw [he]
  · simp only [if_neg h]
    constructor
    · intro he
      cases he
    · rintro ⟨-, hb⟩
      exact absurd hb h

/-- Witness for C4 at a concrete input: a whitespace-only résumé makes the
analysis fail with `InvalidInputError`, and non-blank inputs succeed. -/
theorem analyze_error_iff_witness :
    (analyze simHalf none [] ⟨5, true, 2⟩ [' '] ['j', 'o', 'b'] =
        Except.error AnalysisError.invalidInput ↔
      (AnalysisError.invalidInput = AnalysisError.invalidInput ∧
        (isBlank [' '] || isBlank ['j', 'o', 'b']) = true)) :=
  analyze_error_iff simHalf none [] ⟨5, true, 2⟩ [' '] ['j', 'o', 'b']
    AnalysisError.invalidInput

/-! ## Frontend: history persistence (`frontend/app/page.tsx`) -/

/-- The `AnalyzeResult` record type declared in `frontend/app/page.tsx`
(lines 33–47); numbers are modelled as rationals, optional fields as
`Option`. -/
structure TopMatchFE where
  job_sentence : Text
  resume_sentence : Text
  similarity : ℚ
  deriving DecidableEq

structure AnalyzeResultFE where
  match_score : ℚ
  semantic_score : Option ℚ
  top_matches : Option (List TopMatchFE)
  matched_keywords : List Text
  missing_keywords : List Text
  filename : Text
  ai_summary : Option Text
  ai_missing_skills : Option (List Text)
  ai_bullet_improvements : Option (List Text)
  deriving DecidableEq

/-- The `HistoryItem` record type declared in `frontend/app/page.tsx`
(lines 49–54). -/
structure HistoryItem where
  id : Text
  timestamp : Text
  jobDescription : Text
  result : AnalyzeResultFE
  deriving DecidableEq

/-- `saveHistory` from `frontend/app/page.tsx` (lines 206–210): prepend the
new item and keep the first five (`[item, ...history].slice(0, 5)`). -/
def saveHistory (item : HistoryItem) (history : List HistoryItem) :
    List HistoryItem :=
  (item :: history).take 5

/-- `removeHistoryItem` from `frontend/app/page.tsx` (lines 212–216):
`history.filter((h) => h.id !== id)`. -/
def removeHistoryItem (id : Text) (history : List HistoryItem) :
    List HistoryItem :=
  history.filter (fun h => decide (h.id ≠ id))

/-- C8. `saveHistory` stores at most five items with the just-saved item
first, and `removeHistoryItem` keeps exactly the items with a different id,
in their original order. -/
theorem history_invariants (item : HistoryItem) (history : List HistoryItem)
    (id : Text) :
    (saveHistory item history).length ≤ 5 ∧
    (saveHistory item history).head? = some item ∧
    (∀ x, x ∈ removeHistoryItem id history ↔ (x ∈ history ∧ x.id ≠ id)) ∧
    List.Sublist (removeHistoryItem id history) history := by
  refine ⟨List.length_take_le _ _, rfl, ?_, List.filter_sublist _⟩
  intro x
  simp [removeHistoryItem, List.mem_filter]

/-- A concrete frontend result used by the C8 witness. -/
def arA : AnalyzeResultFE :=
  ⟨0, none, none, [], [], [], none, none, none⟩

/-- A concrete history item used by the C8 witness. -/
def hiA : HistoryItem := ⟨['1'], [], [], arA⟩

/-- Witness for C8 at a concrete input. -/
theorem history_invariants_witness :
    (saveHistory hiA []).length ≤ 5 ∧
    (saveHistory hiA []).head? = some hiA ∧
    (∀ x, x ∈ removeHistoryItem ['1'] [] ↔ (x ∈ ([] : List HistoryItem) ∧ x.id ≠ ['1'])) ∧
    List.Sublist (removeHistoryItem ['1'] []) ([] : List HistoryItem) :=
  history_invariants hiA [] ['1']

/-! ## Frontend: `ScoreRing` (`frontend/app/page.tsx`, lines 89–138) -/

/-- `ScoreRing`'s rendered percentage:
`Math.min(Math.max(value, 0), 100)`. -/
def scoreRingProgress (value : ℚ) : ℚ := min (max value 0) 100

/-- `ScoreRing`'s stroke-dash offset:
`circumference - (progress / 100) * circumference`. -/
def scoreRingOffset (circumference progress : ℚ) : ℚ :=
  circumference - progress / 100 * circumference

/-- C10. The rendered percentage is clamped to `[0, 100]` — it equals the
input inside the range, is 0 for negative input and 100 above 100 — and for
any non-negative circumference the arc offset stays within
`[0, circumference]`. -/
theorem scoreRing_clamped (value circ : ℚ) (hc : 0 ≤ circ) :
    0 ≤ scoreRingProgress value ∧ scoreRingProgress value ≤ 100 ∧
    (0 ≤ value → value ≤ 100 → scoreRingProgress value = value) ∧
    (value < 0 → scoreRingProgress value = 0) ∧
    (100 < value → scoreRingProgress value = 100) ∧
    0 ≤ scoreRingOffset circ (scoreRingProgress value) ∧
    scoreRingOffset circ (scoreRingProgress value) ≤ circ := by
  have h0 : 0 ≤ scoreRingProgress value := by
    unfold scoreRingProgress
    rcases le_total value 0 with h | h
    · rw [max_eq_right h]
      norm_num
    · rw [max_eq_left h]
      exact le_min h (by norm_num)
  have h100 : scoreRingProgress value ≤ 100 := min_le_right _ _
  refine ⟨h0, h100, ?_, ?_, ?_, ?_, ?_⟩
  · intro hv0 hv100
    unfold scoreRingProgress
    rw [max_eq_left hv0, min_eq_left hv100]
  · intro hv
    unfold scoreRingProgress
    rw [max_eq_right (le_of_lt hv)]
    norm_num
  · intro hv
    unfold scoreRingProgress
    rw [max_eq_left (le_trans (by norm_num) (le_of_lt hv))]
    exact min_eq_right (le_of_lt hv)
  · unfold scoreRingOffset
    nlinarith
  · unfold scoreRingOffset
    nlinarith

/-- Witness for C10 at a concrete input. -/
theorem scoreRing_clamped_witness :
    (0 : ℚ) ≤ 289 ∧
    (0 ≤ scoreRingProgress 150 ∧ scoreRingProgress 150 ≤ 100 ∧
    ((0 : ℚ) ≤ 150 → (150 : ℚ) ≤ 100 → scoreRingProgress 150 = 150) ∧
    ((150 : ℚ) < 0 → scoreRingProgress 150 = 0) ∧
    ((100 : ℚ) < 150 → scoreRingProgress 150 = 100) ∧
    0 ≤ scoreRingOffset 289 (scoreRingProgress 150) ∧
    scoreRingOffset 289 (scoreRingProgress 150) ≤ 289) :=
  ⟨by norm_num, scoreRing_clamped 150 289 (by norm_num)⟩

/-! ## Result shapes: the §3 wire contract versus the consumer-side types -/

/-- Field shape — (name, is-optional) in declaration order — of the §3
`AnalysisResult` contract. -/
def specResultFields : List (String × Bool) :=
  [("match_score", false), ("semantic_score", true), ("matched_keywords", false),
   ("missing_keywords", false), ("top_matches", false), ("ai_summary", true),
   ("ai_missing_skills", true), ("ai_bullet_improvements", true)]

/-- Modelled from the spec: the wire shape of the core `AnalysisResult` as
constructed in this file from §3 (the backend serializer is not in `src/`). -/
def coreResultFields : List (String × Bool) :=
  [("match_score", false), ("semantic_score", true), ("matched_keywords", false),
   ("missing_keywords", false), ("top_matches", false), ("ai_summary", true),
   ("ai_missing_skills", true), ("ai_bullet_improvements", true)]

/-- Field shape declared by `AnalyzeResult` in `frontend/app/page.tsx`
(lines 33–47). -/
def frontendResultFields : List (String × Bool) :=
  [("match_score", false), ("semantic_score", true), ("top_matches", true),
   ("matched_keywords", false), ("missing_keywords", false), ("filename", false),
   ("ai_summary", true), ("ai_missing_skills", true),
   ("ai_bullet_improvements", true)]

/-- Field shape declared by the standalone `AnalyzeResult` type module
(`src/unnamed/part_002`). -/
def moduleResultFields : List (String × Bool) :=
  [("match_score", false), ("matched_keywords", false),
   ("missing_keywords", false), ("semantic_score", true)]

/-- C7 counterexample: neither consumer-side `AnalyzeResult` type declares
exactly the §3 shape — the frontend type adds a required `filename` field and
declares `top_matches` optional, and the standalone type module omits
`top_matches` and the `ai_*` fields. -/
theorem result_shape_counterexample :
    frontendResultFields.contains ("filename", false) = true ∧
    specResultFields.contains ("filename", false) = false ∧
    specResultFields.contains ("filename", true) = false ∧
    frontendResultFields.contains ("top_matches", true) = true ∧
    specResultFields.contains ("top_matches", false) = true ∧
    frontendResultFields.contains ("top_matches", false) = false ∧
    moduleResultFields.contains ("top_matches", false) = false ∧
    moduleResultFields.contains ("top_matches", true) = false ∧
    frontendResultFields ≠ specResultFields ∧
    moduleResultFields ≠ specResultFields := by
  decide

/-- C7 amended: the core result (modelled from §3) carries exactly the §3
fields, and the consumer-side types deviate from the contract only as
follows — the frontend type keeps every §3 field but makes `top_matches`
optional and adds a required `filename`; the standalone type module declares
a strict subset of the §3 fields. -/
theorem result_shape_amended :
    coreResultFields = specResultFields ∧
    (specResultFields.all (fun p =>
        frontendResultFields.contains p || p == ("top_matches", false))) = true ∧
    frontendResultFields.contains ("top_matches", true) = true ∧
    (frontendResultFields.all (fun p =>
        specResultFields.contains p || p == ("filename", false) ||
          p == ("top_matches", true))) = true ∧
    (moduleResultFields.all (fun p => specResultFields.contains p)) = true := by
  decide

/-! ## Share link (`copyShareLink`, `frontend/app/page.tsx` lines 376–382, and
its decoding effect, lines 189–204)

`copyShareLink` computes `encodeURIComponent(btoa(JSON.stringify(payload)))`
with `payload = { result, jobDescription }`; the page-load effect reverses it
with `JSON.parse(atob(decodeURIComponent(encoded)))` and reads `.result` and
`.jobDescription`.  The browser built-ins are modelled below on UTF-16 code
units (`Nat`): `btoa` is partial (it throws on code units above 255, modelled
as `none`), and JSON numbers are modelled as exact decimals — the
exponent-free forms `JSON.stringify` emits for in-range numbers. -/

mutual
/-- A JSON value as produced by `JSON.parse`; strings are lists of UTF-16
code units, numbers are signed decimals (sign, integer digits, fraction
digits). -/
inductive Json where
  | null : Json
  | bool : Bool → Json
  | num : Bool → List Nat → List Nat → Json
  | str : List Nat → Json
  | arr : JsonList → Json
  | obj : JsonObj → Json
  deriving DecidableEq
/-- A list of JSON values (array elements). -/
inductive JsonList where
  | nil : JsonList
  | cons : Json → JsonList → JsonList
  deriving DecidableEq
/-- An association list of JSON object fields (key, value). -/
inductive JsonObj where
  | nil : JsonObj
  | cons : List Nat → Json → JsonObj → JsonObj
  deriving DecidableEq
end

/-- Lowercase hex digit, as `JSON.stringify` emits in `\u00xx` escapes. -/
def hexDigitLower (n : Nat) : Nat := if n < 10 then 48 + n else 87 + n

/-- Uppercase hex digit, as `encodeURIComponent` emits in `%XX` escapes. -/
def hexDigitUpper (n : Nat) : Nat := if n < 10 then 48 + n else 55 + n

/-- Value of a hex digit code unit (either case), `none` otherwise. -/
def hexVal (c : Nat) : Option Nat :=
  if 48 ≤ c ∧ c ≤ 57 then some (c - 48)
  else if 65 ≤ c ∧ c ≤ 70 then some (c - 55)
  else if 97 ≤ c ∧ c ≤ 102 then some (c - 87)
  else none

/-- `JSON.stringify` string escaping of one code unit: `\"` and `\\`, the
short escapes for backspace, tab, newline, form feed and carriage return,
`\u00xx` for the other control characters, and everything else verbatim. -/
def escapeUnit (u : Nat) : List Nat :=
  if u = 34 then [92, 34]
  else if u = 92 then [92, 92]
  else if u = 8 then [92, 98]
  else if u = 9 then [92, 116]
  else if u = 10 then [92, 110]
  else if u = 12 then [92, 102]
  else if u = 13 then [92, 114]
  else if u < 32 then [92, 117, 48, 48, hexDigitLower (u / 16), hexDigitLower (u % 16)]
  else [u]

/-- Escape a whole string body. -/
def escapeStr : List Nat → List Nat
  | [] => []
  | u :: us => escapeUnit u ++ escapeStr us

/-- `JSON.stringify` of a string: quote, escaped body, quote. -/
def strString (s : List Nat) : List Nat := 34 :: escapeStr s ++ [34]

/-- Decimal digit codes of a digit list. -/
def strDigits (ds : List Nat) : List Nat := ds.map (fun d => 48 + d)

/-- The serialized fraction part: nothing, or a dot and the digits. -/
def fpTail (fp : List Nat) : List Nat :=
  if fp = [] then [] else 46 :: strDigits fp

/-- `JSON.stringify` of a number: optional minus, integer digits, optional
dot and fraction digits. -/
def strNum (neg : Bool) (ip fp : List Nat) : List Nat :=
  (if neg then [45] else []) ++ strDigits ip ++ fpTail fp

mutual
/-- `JSON.stringify` of a value (no whitespace, insertion-order fields). -/
def strJson : Json → List Nat
  | .null => [110, 117, 108, 108]
  | .bool true => [116, 114, 117, 101]
  | .bool false => [102, 97, 108, 115, 101]
  | .num neg ip fp => strNum neg ip fp
  | .str s => strString s
  | .arr xs => 91 :: strArr xs ++ [93]
  | .obj kvs => 123 :: strObj kvs ++ [125]
/-- Array elements, comma-separated, without the brackets. -/
def strArr : JsonList → List Nat
  | .nil => []
  | .cons v .nil => strJson v
  | .cons v (.cons w ws) => strJson v ++ 44 :: strArr (.cons w ws)
/-- Object fields, comma-separated, without the braces. -/
def strObj : JsonObj → List Nat
  | .nil => []
  | .cons k v .nil => strString k ++ 58 :: strJson v
  | .cons k v (.cons k2 v2 kvs) =>
      strString k ++ 58 :: strJson v ++ 44 :: strObj (.cons k2 v2 kvs)
end

/-- Integer-part grammar of JSON numbers: `0`, or a nonzero leading digit. -/
def intOK : List Nat → Bool
  | [] => false
  | d :: rest => if d = 0 then decide (rest = []) else true

/-- Well-formed number components: integer digits non-empty, no leading zero
(except `0` itself), all digits below 10. -/
def numWF (ip fp : List Nat) : Bool :=
  intOK ip && ip.all (fun d => d < 10) && fp.all (fun d => d < 10)

mutual
/-- Values whose decimal components are well-formed (what `JSON.parse` can
produce, hence what round-trips). -/
def jsonWF : Json → Bool
  | .null => true
  | .bool _ => true
  | .num _ ip fp => numWF ip fp
  | .str _ => true
  | .arr xs => listWF xs
  | .obj kvs => objWF kvs
/-- Well-formedness of array elements. -/
def listWF : JsonList → Bool
  | .nil => true
  | .cons v vs => jsonWF v && listWF vs
/-- Well-formedness of object field values. -/
def objWF : JsonObj → Bool
  | .nil => true
  | .cons _ v kvs => jsonWF v && objWF kvs
end

mutual
/-- Parser-fuel size of a value. -/
def jsize : Json → Nat
  | .null => 1
  | .bool _ => 1
  | .num _ _ _ => 1
  | .str _ => 1
  | .arr xs => lsize xs + 1
  | .obj kvs => osize kvs + 1
/-- Parser-fuel size of array elements. -/
def lsize : JsonList → Nat
  | .nil => 1
  | .cons v vs => jsize v + lsize vs + 1
/-- Parser-fuel size of object fields. -/
def osize : JsonObj → Nat
  | .nil => 1
  | .cons _ v kvs => jsize v + osize kvs + 1
end

/-- Values of the short escape characters accepted after a backslash. -/
def escCode (e : Nat) : Option Nat :=
  if e = 34 then some 34
  else if e = 92 then some 92
  else if e = 47 then some 47
  else if e = 98 then some 8
  else if e = 116 then some 9
  else if e = 110 then some 10
  else if e = 102 then some 12
  else if e = 114 then some 13
  else none

mutual
/-- Parse a string body up to and beyond the closing quote, returning the
content and the rest of the input. -/
def parseStrAux : List Nat → Option (List Nat × List Nat)
  | [] => none
  | c :: rest =>
    if c = 34 then some ([], rest)
    else if c = 92 then parseEsc rest
    else (parseStrAux rest).map (fun p => (c :: p.1, p.2))
/-- Parse what follows a backslash inside a string. -/
def parseEsc : List Nat → Option (List Nat × List Nat)
  | [] => none
  | e :: rest =>
    if e = 117 then
      match rest with
      | h1 :: h2 :: h3 :: h4 :: r =>
        match hexVal h1, hexVal h2, hexVal h3, hexVal h4, parseStrAux r with
        | some a, some b, some c, some d, some p =>
            some ((((a * 16 + b) * 16 + c) * 16 + d) :: p.1, p.2)
        | _, _, _, _, _ => none
      | _ => none
    else
      match escCode e with
      | none => none
      | some v => (parseStrAux rest).map (fun p => (v :: p.1, p.2))
end

/-- Greedily read decimal digits, returning their values and the rest. -/
def parseDigitsAux : List Nat → List Nat × List Nat
  | [] => ([], [])
  | c :: rest =>
    if 48 ≤ c ∧ c ≤ 57 then
      ((c - 48) :: (parseDigitsAux rest).1, (parseDigitsAux rest).2)
    else ([], c :: rest)

/-- Parse the digits of a number after the optional minus sign. -/
def parseNumBody (neg : Bool) (input : List Nat) : Option (Json × List Nat) :=
  match parseDigitsAux input with
  | (ds, r) =>
    if ds = [] then none
    else if intOK ds then
      match r with
      | [] => some (.num neg ds [], [])
      | c2 :: r2 =>
        if c2 = 46 then
          match parseDigitsAux r2 with
          | (fs, r3) => if fs = [] then none else some (.num neg ds fs, r3)
        else some (.num neg ds [], c2 :: r2)
    else none

/-- Parse a JSON number (optional minus, integer part, optional fraction). -/
def parseNum (input : List Nat) : Option (Json × List Nat) :=
  match input with
  | [] => none
  | c :: r => if c = 45 then parseNumBody true r else parseNumBody false (c :: r)

/-- Expect a literal sequence of code units, returning the rest. -/
def dropLit : List Nat → List Nat → Option (List Nat)
  | [], input => some input
  | _ :: _, [] => none
  | l :: ls, c :: rest => if c = l then dropLit ls rest else none

mutual
/-- Fuel-indexed parser for one JSON value (no leading whitespace, as in the
output of `JSON.stringify`). -/
def parseVal : Nat → List Nat → Option (Json × List Nat)
  | 0, _ => none
  | fuel + 1, input =>
    match input with
    | [] => none
    | c :: rest =>
      if c = 110 then (dropLit [117, 108, 108] rest).map (fun r => (Json.null, r))
      else if c = 116 then
        (dropLit [114, 117, 101] rest).map (fun r => (Json.bool true, r))
      else if c = 102 then
        (dropLit [97, 108, 115, 101] rest).map (fun r => (Json.bool false, r))
      else if c = 34 then (parseStrAux rest).map (fun p => (Json.str p.1, p.2))
      else if c = 91 then
        match rest with
        | [] => none
        | c2 :: r2 =>
          if c2 = 93 then some (Json.arr .nil, r2)
          else (parseArrItems fuel (c2 :: r2)).map (fun p => (Json.arr p.1, p.2))
      else if c = 123 then
        match rest with
        | [] => none
        | c2 :: r2 =>
          if c2 = 125 then some (Json.obj .nil, r2)
          else (parseObjItems fuel (c2 :: r2)).map (fun p => (Json.obj p.1, p.2))
      else parseNum (c :: rest)
/-- Parse the elements of a non-empty array, consuming the closing bracket. -/
def parseArrItems : Nat → List Nat → Option (JsonList × List Nat)
  | 0, _ => none
  | fuel + 1, input =>
    match parseVal fuel input with
    | none => none
    | some (v, r) =>
      match r with
      | [] => none
      | c :: r2 =>
        if c = 44 then
          (parseArrItems fuel r2).map (fun p => (JsonList.cons v p.1, p.2))
        else if c = 93 then some (JsonList.cons v .nil, r2)
        else none
/-- Parse the fields of a non-empty object, consuming the closing brace. -/
def parseObjItems : Nat → List Nat → Option (JsonObj × List Nat)
  | 0, _ => none
  | fuel + 1, input =>
    match input with
    | [] => none
    | c :: rest =>
      if c = 34 then
        match parseStrAux rest with
        | none => none
        | some (k, r) =>
          match r with
          | [] => none
          | c2 :: r2 =>
            if c2 = 58 then
              match parseVal fuel r2 with
              | none => none
              | some (v, r3) =>
                match r3 with
                | [] => none
                | c3 :: r4 =>
                  if c3 = 44 then
                    (parseObjItems fuel r4).map
                      (fun p => (JsonObj.cons k v p.1, p.2))
                  else if c3 = 125 then some (JsonObj.cons k v .nil, r4)
                  else none
            else none
      else none
end

/-- `JSON.parse` on exponent-free input: parse one value with enough fuel and
require the input to be fully consumed. -/
def parseJson (input : List Nat) : Option Json :=
  match parseVal (2 * input.length + 2) input with
  | some (v, []) => some v
  | _ => none

/-- The code unit of base64 alphabet position `n` (`A`–`Z`, `a`–`z`, `0`–`9`,
`+`, `/`). -/
def b64char (n : Nat) : Nat :=
  if n < 26 then 65 + n
  else if n < 52 then 97 + (n - 26)
  else if n < 62 then 48 + (n - 52)
  else if n = 62 then 43
  else 47

/-- Alphabet position of a base64 code unit, `none` for non-alphabet units. -/
def b64index (c : Nat) : Option Nat :=
  if 65 ≤ c ∧ c ≤ 90 then some (c - 65)
  else if 97 ≤ c ∧ c ≤ 122 then some (26 + (c - 97))
  else if 48 ≤ c ∧ c ≤ 57 then some (52 + (c - 48))
  else if c = 43 then some 62
  else if c = 47 then some 63
  else none

/-- `btoa` on byte values: encode 3-byte groups into 4 alphabet units, with
`=` (61) padding for the final 1- or 2-byte group. -/
def btoaBytes : List Nat → List Nat
  | [] => []
  | [a] => [b64char (a / 4), b64char (a % 4 * 16), 61, 61]
  | [a, b] => [b64char (a / 4), b64char (a % 4 * 16 + b / 16),
               b64char (b % 16 * 4), 61]
  | a :: b :: c :: rest =>
      b64char (a / 4) :: b64char (a % 4 * 16 + b / 16) ::
        b64char (b % 16 * 4 + c / 64) :: b64char (c % 64) :: btoaBytes rest

/-- `atob`: decode 4-unit base64 groups back to bytes, honouring padding;
`none` on malformed input. -/
def atobBytes : List Nat → Option (List Nat)
  | [] => some []
  | c1 :: c2 :: c3 :: c4 :: rest =>
    (match b64index c1, b64index c2 with
     | some n1, some n2 =>
       if c3 = 61 then
         if c4 = 61 ∧ rest = [] then some [n1 * 4 + n2 / 16] else none
       else
         match b64index c3 with
         | some n3 =>
           if c4 = 61 then
             if rest = [] then some [n1 * 4 + n2 / 16, n2 % 16 * 16 + n3 / 4]
             else none
           else
             match b64index c4, atobBytes rest with
             | some n4, some ds =>
                 some ((n1 * 4 + n2 / 16) :: (n2 % 16 * 16 + n3 / 4) ::
                   (n3 % 4 * 64 + n4) :: ds)
             | _, _ => none
         | none => none
     | _, _ => none)
  | _ => none

/-- `btoa` on a JS string: fails (throws `InvalidCharacterError`, modelled as
`none`) when any code unit is above 255. -/
def btoaStr (s : List Nat) : Option (List Nat) :=
  if s.all (fun c => c < 256) then some (btoaBytes s) else none

/-- Code units `encodeURIComponent` leaves unescaped: letters, digits, and
`- _ . ! ~ * ' ( )`. -/
def isUnreservedCode (c : Nat) : Bool :=
  (decide (65 ≤ c) && decide (c ≤ 90)) ||
  (decide (97 ≤ c) && decide (c ≤ 122)) ||
  (decide (48 ≤ c) && decide (c ≤ 57)) ||
  decide (c = 45) || decide (c = 95) || decide (c = 46) || decide (c = 33) ||
  decide (c = 126) || decide (c = 42) || decide (c = 39) || decide (c = 40) ||
  decide (c = 41)

/-- `encodeURIComponent` on ASCII input: unreserved units verbatim, others as
`%XX` with uppercase hex (multi-byte UTF-8 escaping of non-ASCII units is not
needed here — the input is base64 output — and is modelled as `none`). -/
def percentEncode : List Nat → Option (List Nat)
  | [] => some []
  | c :: cs =>
    if c < 128 then
      (percentEncode cs).map (fun rest =>
        if isUnreservedCode c then c :: rest
        else 37 :: hexDigitUpper (c / 16) :: hexDigitUpper (c % 16) :: rest)
    else none

mutual
/-- `decodeURIComponent` on ASCII output: decode `%XX` triples, keep other
units verbatim; `none` on a dangling `%`. -/
def percentDecode : List Nat → Option (List Nat)
  | [] => some []
  | c :: cs =>
    if c = 37 then percentDecodeHex cs
    else (percentDecode cs).map (fun rest => c :: rest)
/-- Decode the two hex digits after a `%`. -/
def percentDecodeHex : List Nat → Option (List Nat)
  | h1 :: h2 :: cs2 =>
    (match hexVal h1, hexVal h2, percentDecode cs2 with
     | some a, some b, some rest => some ((a * 16 + b) :: rest)
     | _, _, _ => none)
  | _ => none
end

/-- Code units of the key `result`. -/
def keyResult : List Nat := [114, 101, 115, 117, 108, 116]

/-- Code units of the key `jobDescription`. -/
def keyJobDescription : List Nat :=
  [106, 111, 98, 68, 101, 115, 99, 114, 105, 112, 116, 105, 111, 110]

/-- The payload object `{ result, jobDescription }` built by
`copyShareLink`. -/
def sharePayload (result : Json) (jd : List Nat) : Json :=
  Json.obj (.cons keyResult result
    (.cons keyJobDescription (Json.str jd) .nil))

/-- JS property lookup on a parsed object: with duplicate keys the later
binding wins, as in `JSON.parse`. -/
def objFind : JsonObj → List Nat → Option Json
  | .nil, _ => none
  | .cons k v kvs, key =>
    match objFind kvs key with
    | some r => some r
    | none => if k = key then some v else none

/-- Read a property of a parsed JSON value (`decoded.result` etc.). -/
def getField : Json → List Nat → Option Json
  | .obj kvs, key => objFind kvs key
  | _, _ => none

/-- `copyShareLink`'s `report` parameter:
`encodeURIComponent(btoa(JSON.stringify({ result, jobDescription })))`. -/
def encodeShare (result : Json) (jd : List Nat) : Option (List Nat) :=
  match btoaStr (strJson (sharePayload result jd)) with
  | none => none
  | some b => percentEncode b

/-- The page-load decoding:
`JSON.parse(atob(decodeURIComponent(encoded)))` followed by reading
`.result` and `.jobDescription` (the latter must be a string). -/
def decodeShare (s : List Nat) : Option (Json × List Nat) :=
  match percentDecode s with
  | none => none
  | some u =>
    match atobBytes u with
    | none => none
    | some t =>
      match parseJson t with
      | none => none
      | some v =>
        match getField v keyResult, getField v keyJobDescription with
        | some r, some (Json.str jd) => some (r, jd)
        | _, _ => none

/-! ## Round-trip lemmas for the share-link encoding -/

theorem dropLit_self (ls : List Nat) : ∀ input, dropLit ls (ls ++ input) = some input := by
  induction ls with
  | nil => intro input; rfl
  | cons l ls ih => intro input; simp [dropLit, ih]

theorem hexVal_hexDigitLower : ∀ n, n < 16 → hexVal (hexDigitLower n) = some n := by
  decide

theorem hexVal_hexDigitUpper : ∀ n, n < 16 → hexVal (hexDigitUpper n) = some n := by
  decide

theorem parseStrAux_escape (s : List Nat) :
    ∀ rest, parseStrAux (escapeStr s ++ 34 :: rest) = some (s, rest) := by
  induction s with
  | nil => intro rest; simp [escapeStr, parseStrAux]
  | cons u us ih =>
    intro rest
    by_cases h34 : u = 34
    · subst h34
      simp [escapeStr, escapeUnit, parseStrAux, parseEsc, escCode, ih]
    by_cases h92 : u = 92
    · subst h92
      simp [escapeStr, escapeUnit, parseStrAux, parseEsc, escCode, ih]
    by_cases h8 : u = 8
    · subst h8
      simp [escapeStr, escapeUnit, parseStrAux, parseEsc, escCode, ih]
    by_cases h9 : u = 9
    · subst h9
      simp [escapeStr, escapeUnit, parseStrAux, parseEsc, escCode, ih]
    by_cases h10 : u = 10
    · subst h10
      simp [escapeStr, escapeUnit, parseStrAux, parseEsc, escCode, ih]
    by_cases h12 : u = 12
    · subst h12
      simp [escapeStr, escapeUnit, parseStrAux, parseEsc, escCode, ih]
    by_cases h13 : u = 13
    · subst h13
      simp [escapeStr, escapeUnit, parseStrAux, parseEsc, escCode, ih]
    by_cases hctl : u < 32
    · have hhi : hexVal (hexDigitLower (u / 16)) = some (u / 16) :=
        hexVal_hexDigitLower _ (by omega)
      have hlo : hexVal (hexDigitLower (u % 16)) = some (u % 16) :=
        hexVal_hexDigitLower _ (by omega)
      simp only [escapeStr, escapeUnit, if_neg h34, if_neg h92, if_neg h8,
        if_neg h9, if_neg h10, if_neg h12, if_neg h13, if_pos hctl,
        List.cons_append, List.append_assoc, List.nil_append]
      have h48 : hexVal 48 = some 0 := by decide
      simp [parseStrAux, parseEsc, h48, hhi, hlo, ih]
      omega
    · simp only [escapeStr, escapeUnit, if_neg h34, if_neg h92, if_neg h8,
        if_neg h9, if_neg h10, if_neg h12, if_neg h13, if_neg hctl,
        List.cons_append, List.nil_append]
      simp [parseStrAux, h34, h92, ih]

/-- The input does not start with a decimal digit. -/
def nonDigitHead : List Nat → Prop
  | [] => True
  | c :: _ => ¬(48 ≤ c ∧ c ≤ 57)

/-- The input is empty or starts with a value terminator (`,`, `]`, `}`). -/
def stopHead : List Nat → Prop
  | [] => True
  | c :: _ => c = 44 ∨ c = 93 ∨ c = 125

theorem stopHead_nonDigit : ∀ rest, stopHead rest → nonDigitHead rest := by
  intro rest h
  cases rest with
  | nil => trivial
  | cons c cs =>
    simp only [stopHead] at h
    simp only [nonDigitHead]
    omega

theorem parseDigitsAux_append (ds : List Nat) :
    ∀ tail, (∀ d ∈ ds, d < 10) → nonDigitHead tail →
      parseDigitsAux (strDigits ds ++ tail) = (ds, tail) := by
  induction ds with
  | nil =>
    intro tail _ ht
    cases tail with
    | nil => rfl
    | cons c cs =>
      simp only [nonDigitHead] at ht
      simp [strDigits, parseDigitsAux, ht]
  | cons d ds ih =>
    intro tail hds ht
    have hd : d < 10 := hds d (List.mem_cons_self _ _)
    have hcond : 48 ≤ 48 + d ∧ 48 + d ≤ 57 := by omega
    have ihx := ih tail (fun x hx => hds x (List.mem_cons_of_mem _ hx)) ht
    show parseDigitsAux ((48 + d) :: (strDigits ds ++ tail)) = (d :: ds, tail)
    simp [parseDigitsAux, hcond, ihx]

theorem numWF_parts (ip fp : List Nat) (hwf : numWF ip fp = true) :
    intOK ip = true ∧ (∀ d ∈ ip, d < 10) ∧ (∀ d ∈ fp, d < 10) ∧ ip ≠ [] := by
  simp only [numWF, Bool.and_eq_true, List.all_eq_true, decide_eq_true_eq] at hwf
  refine ⟨hwf.1.1, hwf.1.2, hwf.2, ?_⟩
  intro h
  rw [h] at hwf
  simp [intOK] at hwf

theorem parseNumBody_correct (neg : Bool) (ip fp rest : List Nat)
    (hwf : numWF ip fp = true) (hrest : stopHead rest) :
    parseNumBody neg (strDigits ip ++ fpTail fp ++ rest) =
      some (Json.num neg ip fp, rest) := by
  obtain ⟨hintOK, hip, hfp, hipne⟩ := numWF_parts ip fp hwf
  by_cases hfpe : fp = []
  · subst hfpe
    simp only [show fpTail ([] : List Nat) = [] from rfl, List.nil_append,
      List.append_nil]
    have hd := parseDigitsAux_append ip rest hip (stopHead_nonDigit rest hrest)
    rw [parseNumBody, hd]
    simp only [if_neg hipne, if_pos hintOK]
    cases rest with
    | nil => simp
    | cons c2 r2 =>
      simp only [stopHead] at hrest
      have hne46 : ¬(c2 = 46) := by omega
      simp [hne46]
  · have hd := parseDigitsAux_append ip (fpTail fp ++ rest) hip
      (by simp [fpTail, hfpe, nonDigitHead])
    have hd2 := parseDigitsAux_append fp rest hfp (stopHead_nonDigit rest hrest)
    rw [← List.append_assoc] at hd
    rw [parseNumBody, hd]
    simp only [if_neg hipne, if_pos hintOK]
    rw [show fpTail fp = 46 :: strDigits fp from by simp [fpTail, hfpe]]
    simp only [List.cons_append, if_pos rfl]
    rw [hd2]
    simp [hfpe]

theorem parseNum_correct (neg : Bool) (ip fp rest : List Nat)
    (hwf : numWF ip fp = true) (hrest : stopHead rest) :
    parseNum (strNum neg ip fp ++ rest) = some (Json.num neg ip fp, rest) := by
  have hbody := parseNumBody_correct neg ip fp rest hwf hrest
  obtain ⟨hintOK, hip, hfp, hipne⟩ := numWF_parts ip fp hwf
  obtain ⟨d, ds, hipeq⟩ : ∃ d ds, ip = d :: ds := by
    cases ip with
    | nil => exact absurd rfl hipne
    | cons d ds => exact ⟨d, ds, rfl⟩
  have hd : d < 10 := hip d (hipeq ▸ List.mem_cons_self _ _)
  cases neg with
  | true =>
    have harg : strNum true ip fp ++ rest =
        45 :: (strDigits ip ++ fpTail fp ++ rest) := by
      simp [strNum, List.append_assoc]
    rw [harg, parseNum, if_pos rfl]
    exact hbody
  | false =>
    have harg : strNum false ip fp ++ rest =
        (48 + d) :: (strDigits ds ++ fpTail fp ++ rest) := by
      subst hipeq
      simp [strNum, strDigits, List.append_assoc]
    rw [harg, parseNum, if_neg (by omega : ¬(48 + d = 45))]
    subst hipeq
    rw [show ((48 + d) :: (strDigits ds ++ fpTail fp ++ rest)) =
        strDigits (d :: ds) ++ fpTail fp ++ rest from by
      simp [strDigits, List.append_assoc]]
    exact hbody

theorem jsize_pos : ∀ v : Json, 1 ≤ jsize v := by
  intro v
  cases v <;> simp [jsize]

theorem lsize_pos : ∀ vs : JsonList, 1 ≤ lsize vs := by
  intro vs
  cases vs <;> simp [lsize]

theorem osize_pos : ∀ kvs : JsonObj, 1 ≤ osize kvs := by
  intro kvs
  cases kvs <;> simp [osize]

/-- The first code unit of a serialized well-formed value is a value-start
character. -/
theorem strJson_head (v : Json) (hwf : jsonWF v = true) :
    ∃ c cs, strJson v = c :: cs ∧
      (c = 110 ∨ c = 116 ∨ c = 102 ∨ c = 34 ∨ c = 45 ∨ (48 ≤ c ∧ c ≤ 57) ∨
       c = 91 ∨ c = 123) := by
  cases v with
  | null => exact ⟨110, [117, 108, 108], by simp [strJson], by omega⟩
  | bool b =>
    cases b
    · exact ⟨102, [97, 108, 115, 101], by simp [strJson], by omega⟩
    · exact ⟨116, [114, 117, 101], by simp [strJson], by omega⟩
  | num neg ip fp =>
    obtain ⟨hintOK, hip, hfp, hipne⟩ :=
      numWF_parts ip fp (by simpa [jsonWF] using hwf)
    obtain ⟨d, ds, hipeq⟩ : ∃ d ds, ip = d :: ds := by
      cases ip with
      | nil => exact absurd rfl hipne
      | cons d ds => exact ⟨d, ds, rfl⟩
    have hd : d < 10 := hip d (hipeq ▸ List.mem_cons_self _ _)
    cases neg with
    | true =>
      refine ⟨45, strDigits ip ++ fpTail fp, ?_, by omega⟩
      simp [strJson, strNum]
    | false =>
      subst hipeq
      refine ⟨48 + d, strDigits ds ++ fpTail fp, ?_, by omega⟩
      simp [strJson, strNum, strDigits]
  | str s => exact ⟨34, escapeStr s ++ [34], by simp [strJson, strString], by omega⟩
  | arr xs => exact ⟨91, strArr xs ++ [93], by simp [strJson], by omega⟩
  | obj kvs => exact ⟨123, strObj kvs ++ [125], by simp [strJson], by omega⟩

theorem strArr_cons_head (v : Json) (vs : JsonList) (hwf : jsonWF v = true) :
    ∃ c cs, strArr (.cons v vs) = c :: cs ∧ c ≠ 93 := by
  obtain ⟨c, cs, hh, hset⟩ := strJson_head v hwf
  cases vs with
  | nil => exact ⟨c, cs, by simp [strArr, hh], by omega⟩
  | cons w ws =>
    exact ⟨c, cs ++ 44 :: strArr (.cons w ws), by simp [strArr, hh], by omega⟩

theorem strObj_cons_head (k : List Nat) (v : Json) (kvs : JsonObj) :
    ∃ t, strObj (.cons k v kvs) = 34 :: t := by
  cases kvs with
  | nil =>
    exact ⟨escapeStr k ++ 34 :: 58 :: strJson v, by simp [strObj, strString]⟩
  | cons k2 v2 kvs2 =>
    exact ⟨escapeStr k ++ 34 :: 58 ::
      (strJson v ++ 44 :: strObj (JsonObj.cons k2 v2 kvs2)),
      by simp [strObj, strString]⟩

/-- On number-start characters, the parser dispatches to `parseNum`. -/
theorem parseVal_succ_num (fuel : Nat) (c : Nat) (cs : List Nat)
    (h : c = 45 ∨ (48 ≤ c ∧ c ≤ 57)) :
    parseVal (fuel + 1) (c :: cs) = parseNum (c :: cs) := by
  have h1 : ¬(c = 110) := by omega
  have h2 : ¬(c = 116) := by omega
  have h3 : ¬(c = 102) := by omega
  have h4 : ¬(c = 34) := by omega
  have h5 : ¬(c = 91) := by omega
  have h6 : ¬(c = 123) := by omega
  simp only [parseVal, if_neg h1, if_neg h2, if_neg h3, if_neg h4, if_neg h5,
    if_neg h6]

/-- Parser correctness on serializer output: with enough fuel, parsing the
serialization of a well-formed value before a terminator returns the value. -/
theorem parse_correct : ∀ fuel : Nat,
    (∀ v rest, jsonWF v = true → jsize v ≤ fuel → stopHead rest →
       parseVal fuel (strJson v ++ rest) = some (v, rest)) ∧
    (∀ vs rest, listWF vs = true → vs ≠ JsonList.nil → lsize vs ≤ fuel →
       parseArrItems fuel (strArr vs ++ 93 :: rest) = some (vs, rest)) ∧
    (∀ kvs rest, objWF kvs = true → kvs ≠ JsonObj.nil → osize kvs ≤ fuel →
       parseObjItems fuel (strObj kvs ++ 125 :: rest) = some (kvs, rest)) := by
  intro fuel
  induction fuel with
  | zero =>
    refine ⟨?_, ?_, ?_⟩
    · intro v rest _ hsz _
      have := jsize_pos v
      omega
    · intro vs rest _ _ hsz
      have := lsize_pos vs
      omega
    · intro kvs rest _ _ hsz
      have := osize_pos kvs
      omega
  | succ fuel ih =>
    obtain ⟨ihV, ihA, ihO⟩ := ih
    refine ⟨?_, ?_, ?_⟩
    · intro v rest hwf hsz hstop
      cases v with
      | null => simp [strJson, parseVal, dropLit]
      | bool b => cases b <;> simp [strJson, parseVal, dropLit]
      | num neg ip fp =>
        have hwf' : numWF ip fp = true := by simpa [jsonWF] using hwf
        have hnum := parseNum_correct neg ip fp rest hwf' hstop
        obtain ⟨hintOK, hip, hfp, hipne⟩ := numWF_parts ip fp hwf'
        obtain ⟨d, ds, hipeq⟩ : ∃ d ds, ip = d :: ds := by
          cases ip with
          | nil => exact absurd rfl hipne
          | cons d ds => exact ⟨d, ds, rfl⟩
        have hd : d < 10 := hip d (hipeq ▸ List.mem_cons_self _ _)
        cases neg with
        | true =>
          have harg : strNum true ip fp ++ rest =
              45 :: (strDigits ip ++ fpTail fp ++ rest) := by
            simp [strNum, List.append_assoc]
          show parseVal (fuel + 1) (strNum true ip fp ++ rest) =
            some (Json.num true ip fp, rest)
          rw [harg, parseVal_succ_num fuel 45 _ (Or.inl rfl), ← harg]
          exact hnum
        | false =>
          subst hipeq
          have harg : strNum false (d :: ds) fp ++ rest =
              (48 + d) :: (strDigits ds ++ fpTail fp ++ rest) := by
            simp [strNum, strDigits, List.append_assoc]
          show parseVal (fuel + 1) (strNum false (d :: ds) fp ++ rest) =
            some (Json.num false (d :: ds) fp, rest)
          rw [harg, parseVal_succ_num fuel (48 + d) _
            (Or.inr ⟨by omega, by omega⟩), ← harg]
          exact hnum
      | str s =>
        have harg : strJson (Json.str s) ++ rest =
            34 :: (escapeStr s ++ 34 :: rest) := by
          simp [strJson, strString]
        rw [harg]
        simp [parseVal, parseStrAux_escape]
      | arr xs =>
        cases xs with
        | nil =>
          have harg : strJson (Json.arr JsonList.nil) ++ rest =
              91 :: 93 :: rest := by
            simp [strJson, strArr]
          rw [harg]
          simp [parseVal]
        | cons v vs =>
          have hLwf : listWF (JsonList.cons v vs) = true := by
            simpa [jsonWF] using hwf
          have hvwf : jsonWF v = true := by
            have h2 := hLwf
            simp only [listWF, Bool.and_eq_true] at h2
            exact h2.1
          obtain ⟨c0, cs0, hh, hc93⟩ := strArr_cons_head v vs hvwf
          have harg : strJson (Json.arr (JsonList.cons v vs)) ++ rest =
              91 :: (c0 :: (cs0 ++ 93 :: rest)) := by
            simp [strJson, hh, List.append_assoc]
          rw [harg]
          have e1 : jsize (Json.arr (JsonList.cons v vs)) =
              lsize (JsonList.cons v vs) + 1 := by simp [jsize]
          have hsz2 : lsize (JsonList.cons v vs) ≤ fuel := by
            rw [e1] at hsz
            omega
          have hback : (c0 :: (cs0 ++ 93 :: rest)) =
              strArr (JsonList.cons v vs) ++ 93 :: rest := by
            simp [hh]
          simp only [parseVal]
          norm_num [hc93]
          rw [hback, ihA (JsonList.cons v vs) rest hLwf (by simp) hsz2]
      | obj kvs =>
        cases kvs with
        | nil =>
          have harg : strJson (Json.obj JsonObj.nil) ++ rest =
              123 :: 125 :: rest := by
            simp [strJson, strObj]
          rw [harg]
          simp [parseVal]
        | cons k v kvs2 =>
          have hOwf : objWF (JsonObj.cons k v kvs2) = true := by
            simpa [jsonWF] using hwf
          obtain ⟨t, hh⟩ := strObj_cons_head k v kvs2
          have harg : strJson (Json.obj (JsonObj.cons k v kvs2)) ++ rest =
              123 :: (34 :: (t ++ 125 :: rest)) := by
            simp [strJson, hh, List.append_assoc]
          rw [harg]
          have e1 : jsize (Json.obj (JsonObj.cons k v kvs2)) =
              osize (JsonObj.cons k v kvs2) + 1 := by simp [jsize]
          have hsz2 : osize (JsonObj.cons k v kvs2) ≤ fuel := by
            rw [e1] at hsz
            omega
          have hback : (34 :: (t ++ 125 :: rest)) =
              strObj (JsonObj.cons k v kvs2) ++ 125 :: rest := by
            simp [hh]
          simp only [parseVal]
          norm_num
          rw [hback, ihO (JsonObj.cons k v kvs2) rest hOwf (by simp) hsz2]
    · intro vs rest hLwf hne hsz
      cases vs with
      | nil => exact absurd rfl hne
      | cons v vs2 =>
        have hparts : jsonWF v = true ∧ listWF vs2 = true := by
          simpa [listWF, Bool.and_eq_true] using hLwf
        cases vs2 with
        | nil =>
          have harg : strArr (JsonList.cons v JsonList.nil) ++ 93 :: rest =
              strJson v ++ 93 :: rest := by simp [strArr]
          rw [harg]
          have e1 : lsize (JsonList.cons v JsonList.nil) = jsize v + 2 := by
            simp [lsize]
          have hjv : jsize v ≤ fuel := by
            rw [e1] at hsz
            omega
          have hv := ihV v (93 :: rest) hparts.1 hjv (by simp [stopHead])
          simp only [parseArrItems, hv]
          norm_num
        | cons w ws =>
          have harg : strArr (JsonList.cons v (JsonList.cons w ws)) ++ 93 :: rest
              = strJson v ++
                  44 :: (strArr (JsonList.cons w ws) ++ 93 :: rest) := by
            simp [strArr, List.append_assoc]
          rw [harg]
          have e1 : lsize (JsonList.cons v (JsonList.cons w ws)) =
              jsize v + lsize (JsonList.cons w ws) + 1 := by simp [lsize]
          have hjv : jsize v ≤ fuel := by
            have := lsize_pos (JsonList.cons w ws)
            rw [e1] at hsz
            omega
          have hwsz : lsize (JsonList.cons w ws) ≤ fuel := by
            have := jsize_pos v
            rw [e1] at hsz
            omega
          have hv := ihV v (44 :: (strArr (JsonList.cons w ws) ++ 93 :: rest))
            hparts.1 hjv (by simp [stopHead])
          simp only [parseArrItems, hv]
          norm_num
          rw [ihA (JsonList.cons w ws) rest hparts.2 (by simp) hwsz]
    · intro kvs rest hOwf hne hsz
      cases kvs with
      | nil => exact absurd rfl hne
      | cons k v kvs2 =>
        have hparts : jsonWF v = true ∧ objWF kvs2 = true := by
          simpa [objWF, Bool.and_eq_true] using hOwf
        cases kvs2 with
        | nil =>
          have harg : strObj (JsonObj.cons k v JsonObj.nil) ++ 125 :: rest =
              34 :: (escapeStr k ++ 34 :: (58 :: (strJson v ++ 125 :: rest))) := by
            simp [strObj, strString, List.append_assoc]
          rw [harg]
          have e1 : osize (JsonObj.cons k v JsonObj.nil) = jsize v + 2 := by
            simp [osize]
          have hjv : jsize v ≤ fuel := by
            rw [e1] at hsz
            omega
          have hv := ihV v (125 :: rest) hparts.1 hjv (by simp [stopHead])
          simp only [parseObjItems, parseStrAux_escape, hv]
          norm_num
        | cons k2 v2 kvs3 =>
          have harg : strObj (JsonObj.cons k v (JsonObj.cons k2 v2 kvs3)) ++
                125 :: rest =
              34 :: (escapeStr k ++ 34 :: (58 :: (strJson v ++
                44 :: (strObj (JsonObj.cons k2 v2 kvs3) ++ 125 :: rest)))) := by
            simp [strObj, strString, List.append_assoc]
          rw [harg]
          have e1 : osize (JsonObj.cons k v (JsonObj.cons k2 v2 kvs3)) =
              jsize v + osize (JsonObj.cons k2 v2 kvs3) + 1 := by simp [osize]
          have hjv : jsize v ≤ fuel := by
            have := osize_pos (JsonObj.cons k2 v2 kvs3)
            rw [e1] at hsz
            omega
          have hosz : osize (JsonObj.cons k2 v2 kvs3) ≤ fuel := by
            have := jsize_pos v
            rw [e1] at hsz
            omega
          have hv := ihV v
            (44 :: (strObj (JsonObj.cons k2 v2 kvs3) ++ 125 :: rest))
            hparts.1 hjv (by simp [stopHead])
          simp only [parseObjItems, parseStrAux_escape, hv]
          norm_num
          rw [ihO (JsonObj.cons k2 v2 kvs3) rest hparts.2 (by simp) hosz]

/-- The parser fuel `2 * length + 2` used by `parseJson` dominates the size
of any well-formed value it has to read back. -/
theorem jsize_le (v : Json) :
    jsonWF v = true → jsize v ≤ 2 * (strJson v).length := by
  refine @Json.rec
    (fun v => jsonWF v = true → jsize v ≤ 2 * (strJson v).length)
    (fun xs => listWF xs = true → lsize xs ≤ 2 * (strArr xs).length + 2)
    (fun kvs => objWF kvs = true → osize kvs ≤ 2 * (strObj kvs).length + 2)
    ?_ ?_ ?_ ?_ ?_ ?_ ?_ ?_ ?_ ?_ v
  · intro _
    simp [jsize, strJson]
  · intro b _
    cases b <;> simp [jsize, strJson]
  · intro neg ip fp hwf
    obtain ⟨hintOK, hip, hfp, hipne⟩ :=
      numWF_parts ip fp (by simpa [jsonWF] using hwf)
    obtain ⟨d, ds, hipeq⟩ : ∃ d ds, ip = d :: ds := by
      cases ip with
      | nil => exact absurd rfl hipne
      | cons d ds => exact ⟨d, ds, rfl⟩
    subst hipeq
    have hlen : 1 ≤ (strJson (Json.num neg (d :: ds) fp)).length := by
      cases neg <;> simp [strJson, strNum, strDigits]
    have hsz : jsize (Json.num neg (d :: ds) fp) = 1 := by simp [jsize]
    omega
  · intro s _
    simp only [jsize, strJson, strString, List.length_cons, List.length_append]
    omega
  · intro xs ihxs hwf
    have h := ihxs (by simpa [jsonWF] using hwf)
    simp only [jsize, strJson, List.length_cons, List.length_append]
    simp only [List.length_cons, List.length_nil]
    omega
  · intro kvs ihkvs hwf
    have h := ihkvs (by simpa [jsonWF] using hwf)
    simp only [jsize, strJson, List.length_cons, List.length_append]
    simp only [List.length_cons, List.length_nil]
    omega
  · intro _
    simp [lsize, strArr]
  · intro v vs ihv ihvs hwf
    have hparts : jsonWF v = true ∧ listWF vs = true := by
      simpa [listWF, Bool.and_eq_true] using hwf
    have h1 := ihv hparts.1
    have h2 := ihvs hparts.2
    have e1 : lsize (JsonList.cons v vs) = jsize v + lsize vs + 1 := by
      simp [lsize]
    cases vs with
    | nil =>
      have e2 : strArr (JsonList.cons v JsonList.nil) = strJson v := by
        simp [strArr]
      have e3 : lsize JsonList.nil = 1 := by simp [lsize]
      rw [e1, e2, e3]
      omega
    | cons w ws =>
      have e2 : strArr (JsonList.cons v (JsonList.cons w ws)) =
          strJson v ++ 44 :: strArr (JsonList.cons w ws) := by
        simp [strArr]
      rw [e1, e2]
      simp only [List.length_append, List.length_cons]
      omega
  · intro _
    simp [osize, strObj]
  · intro k v kvs ihv ihkvs hwf
    have hparts : jsonWF v = true ∧ objWF kvs = true := by
      simpa [objWF, Bool.and_eq_true] using hwf
    have h1 := ihv hparts.1
    have h2 := ihkvs hparts.2
    have e1 : osize (JsonObj.cons k v kvs) = jsize v + osize kvs + 1 := by
      simp [osize]
    cases kvs with
    | nil =>
      have e2 : strObj (JsonObj.cons k v JsonObj.nil) =
          strString k ++ 58 :: strJson v := by
        simp [strObj]
      have e3 : osize JsonObj.nil = 1 := by simp [osize]
      rw [e1, e2, e3]
      simp only [List.length_append, List.length_cons]
      omega
    | cons k2 v2 kvs2 =>
      have e2 : strObj (JsonObj.cons k v (JsonObj.cons k2 v2 kvs2)) =
          strString k ++ 58 :: strJson v ++
            44 :: strObj (JsonObj.cons k2 v2 kvs2) := by
        simp [strObj]
      rw [e1, e2]
      simp only [List.length_append, List.length_cons]
      omega

/-- `JSON.parse` inverts `JSON.stringify` on well-formed values. -/
theorem parseJson_strJson (v : Json) (hwf : jsonWF v = true) :
    parseJson (strJson v) = some v := by
  have hb := jsize_le v hwf
  have hp := (parse_correct (2 * (strJson v).length + 2)).1 v [] hwf
    (by omega) (by simp [stopHead])
  rw [List.append_nil] at hp
  simp [parseJson, hp]

theorem b64index_b64char : ∀ n, n < 64 → b64index (b64char n) = some n := by
  decide

theorem b64char_ne_61 : ∀ n, n < 64 → b64char n ≠ 61 := by
  decide

/-- `atob` inverts `btoa` on byte sequences. -/
theorem atob_btoa : ∀ (n : Nat) (bs : List Nat), bs.length ≤ n →
    (∀ b ∈ bs, b < 256) → atobBytes (btoaBytes bs) = some bs := by
  intro n
  induction n with
  | zero =>
    intro bs hlen _
    have hnil : bs = [] := List.eq_nil_of_length_eq_zero (Nat.le_zero.mp hlen)
    subst hnil
    rfl
  | succ n ih =>
    intro bs hlen hb
    rcases bs with _ | ⟨a, _ | ⟨b, _ | ⟨c, rest⟩⟩⟩
    · rfl
    · have ha : a < 256 := hb a (by simp)
      have h1 := b64index_b64char (a / 4) (by omega)
      have h2 := b64index_b64char (a % 4 * 16) (by omega)
      simp [btoaBytes, atobBytes, h1, h2]
      omega
    · have ha : a < 256 := hb a (by simp)
      have hbb : b < 256 := hb b (by simp)
      have h1 := b64index_b64char (a / 4) (by omega)
      have h2 := b64index_b64char (a % 4 * 16 + b / 16) (by omega)
      have h3 := b64index_b64char (b % 16 * 4) (by omega)
      have hne3 := b64char_ne_61 (b % 16 * 4) (by omega)
      simp [btoaBytes, atobBytes, h1, h2, h3, hne3]
      constructor <;> omega
    · have ha : a < 256 := hb a (by simp)
      have hbb : b < 256 := hb b (by simp)
      have hc : c < 256 := hb c (by simp)
      have hrest : ∀ x ∈ rest, x < 256 := fun x hx => hb x (by simp [hx])
      have hlen2 : rest.length ≤ n := by
        simp only [List.length_cons] at hlen
        omega
      have h1 := b64index_b64char (a / 4) (by omega)
      have h2 := b64index_b64char (a % 4 * 16 + b / 16) (by omega)
      have h3 := b64index_b64char (b % 16 * 4 + c / 64) (by omega)
      have h4 := b64index_b64char (c % 64) (by omega)
      have hne3 := b64char_ne_61 (b % 16 * 4 + c / 64) (by omega)
      have hne4 := b64char_ne_61 (c % 64) (by omega)
      have ihr := ih rest hlen2 hrest
      simp [btoaBytes, atobBytes, h1, h2, h3, h4, hne3, hne4, ihr]
      refine ⟨?_, ?_, ?_⟩ <;> omega

theorem isUnreserved_ne_37 (c : Nat) (h : isUnreservedCode c = true) :
    c ≠ 37 := by
  intro hc
  subst hc
  exact absurd h (by decide)

/-- `decodeURIComponent` inverts `encodeURIComponent` whenever the encoding
succeeds. -/
theorem percent_roundtrip : ∀ (m enc : List Nat),
    percentEncode m = some enc → percentDecode enc = some m := by
  intro m
  induction m with
  | nil =>
    intro enc h
    simp [percentEncode] at h
    subst h
    rfl
  | cons c cs ih =>
    intro enc h
    rw [percentEncode] at h
    by_cases h128 : c < 128
    · rw [if_pos h128] at h
      cases hrec : percentEncode cs with
      | none =>
        rw [hrec] at h
        simp at h
      | some enc2 =>
        rw [hrec] at h
        simp only [Option.map_some', Option.some.injEq] at h
        by_cases hunres : isUnreservedCode c
        · rw [if_pos hunres] at h
          subst h
          rw [percentDecode, if_neg (isUnreserved_ne_37 c hunres)]
          simp [ih enc2 hrec]
        · rw [if_neg hunres] at h
          subst h
          have hh1 := hexVal_hexDigitUpper (c / 16) (by omega)
          have hh2 := hexVal_hexDigitUpper (c % 16) (by omega)
          rw [percentDecode, if_pos rfl]
          simp [percentDecodeHex, hh1, hh2, ih enc2 hrec]
          omega
    · rw [if_neg h128] at h
      simp at h

/-- C9. The share link round-trips: whenever `copyShareLink` produces a
`report` parameter (i.e. `btoa` accepts the payload), decoding it —
`decodeURIComponent`, then `atob`, then `JSON.parse`, then reading `.result`
and `.jobDescription` — yields exactly the original result value and job
description. -/
theorem share_link_roundtrip (result : Json) (jd : List Nat) (enc : List Nat)
    (hwf : jsonWF result = true) (henc : encodeShare result jd = some enc) :
    decodeShare enc = some (result, jd) := by
  unfold encodeShare at henc
  cases hb : btoaStr (strJson (sharePayload result jd)) with
  | none =>
    rw [hb] at henc
    simp at henc
  | some b =>
    rw [hb] at henc
    unfold btoaStr at hb
    by_cases hall : (strJson (sharePayload result jd)).all (fun c => c < 256)
    · rw [if_pos hall] at hb
      have hbeq : b = btoaBytes (strJson (sharePayload result jd)) :=
        (Option.some.injEq _ _ ▸ hb).symm
      have hall2 : ∀ x ∈ strJson (sharePayload result jd), x < 256 := by
        simpa [List.all_eq_true] using hall
      have hpwf : jsonWF (sharePayload result jd) = true := by
        simp [sharePayload, jsonWF, objWF, hwf]
      have hpd : percentDecode enc = some b := percent_roundtrip b enc henc
      have hat : atobBytes b = some (strJson (sharePayload result jd)) := by
        rw [hbeq]
        exact atob_btoa (strJson (sharePayload result jd)).length _
          (le_refl _) hall2
      have hpj := parseJson_strJson (sharePayload result jd) hpwf
      have hfr : getField (sharePayload result jd) keyResult = some result := by
        simp [sharePayload, getField, objFind, keyResult, keyJobDescription]
      have hfj : getField (sharePayload result jd) keyJobDescription =
          some (Json.str jd) := by
        simp [sharePayload, getField, objFind, keyResult, keyJobDescription]
      simp [decodeShare, hpd, hat, hpj, hfr, hfj]
    · rw [if_neg hall] at hb
      simp at hb

/-- Witness for C9 at a concrete input: the payload `{ result: 5,
jobDescription: "job" }` encodes and decodes back to itself. -/
theorem share_link_roundtrip_witness :
    jsonWF (Json.num false [5] []) = true ∧
    encodeShare (Json.num false [5] []) [106, 111, 98] =
      some [101, 121, 74, 121, 90, 88, 78, 49, 98, 72, 81, 105, 79, 106, 85,
        115, 73, 109, 112, 118, 89, 107, 82, 108, 99, 50, 78, 121, 97, 88, 66,
        48, 97, 87, 57, 117, 73, 106, 111, 105, 97, 109, 57, 105, 73, 110, 48,
        37, 51, 68] ∧
    decodeShare [101, 121, 74, 121, 90, 88, 78, 49, 98, 72, 81, 105, 79, 106,
        85, 115, 73, 109, 112, 118, 89, 107, 82, 108, 99, 50, 78, 121, 97, 88,
        66, 48, 97, 87, 57, 117, 73, 106, 111, 105, 97, 109, 57, 105, 73, 110,
        48, 37, 51, 68] =
      some (Json.num false [5] [], [106, 111, 98]) :=
  ⟨by decide, by decide,
   share_link_roundtrip (Json.num false [5] []) [106, 111, 98] _
     (by decide) (by decide)⟩

end ResumeOptimizer
